import Mathlib

/-!
# `t/io_uring.c`: the ring worker and its coordinator

A shallow embedding of the parts of `t/io_uring.c` that the properties below
are about: file selection (`file_depth`, `init_io`), request preparation
(`prep_more_ios`), completion reaping (`reap_events`), the worker loop
(`submitter_fn`) and three pieces of `main` (sizing a file, distributing the
files over the workers, summing the counters).

Conventions.
* `unsigned` values are naturals taken modulo `2 ^ 32`, `unsigned long` values
  naturals modulo `2 ^ 64`, wherever the source can wrap them (ring indices,
  `pending_ios`, `max_blocks - 1`). The counters `done`, `reaps`, `calls`
  (`unsigned long`) and `inflight` (`int`) are kept unbounded.
* The kernel is the environment. Each `io_uring_enter` call is answered by one
  `enter_result`: the return value, whether `errno` is `EAGAIN`, the value of
  the submission ring head after the call and the completions posted during it.
* A pointer to `s->files[k]` (in `user_data`) is the index `k`; an access outside
  the worker's files, and a division by zero, is a fault (`none`).
* A count converted to `int` (`return prepped`, `return reaped`) keeps its value.
* `lrand48` is a stream of naturals.
* `sq_thread_poll` is 0 throughout the source, so every pass through the label
  `submit` makes one `io_uring_enter` call and one `reap_events` call.
-/

namespace IoUring

/-! ## Machine arithmetic -/

/-- Wrap to `unsigned`. -/
def u32 (n : Nat) : Nat := n % 2 ^ 32

/-- Wrap to `unsigned long`. -/
def u64 (n : Nat) : Nat := n % 2 ^ 64

/-- The decrement `--` on an `unsigned`. -/
def dec_u32 (p : Nat) : Nat := u32 (p + (2 ^ 32 - 1))

/-- Conversion of an `int` to `unsigned`. -/
def to_unsigned (x : Int) : Nat := (x % 2 ^ 32).toNat

/-- Conversion of an `int` to `unsigned long`. -/
def to_ulong (x : Int) : Nat := (x % 2 ^ 64).toNat

/-! ## Constants and configuration -/

/-- `#define MAX_FDS 16`. -/
def MAX_FDS : Nat := 16

/-- `static int sq_thread_poll = 0;`: the file never assigns it and `main` has
no option for it, so it is the constant 0. -/
def sq_thread_poll : Bool := false

/-- The file-scope settings that `main` reads from the command line. -/
structure config where
  depth : Int
  batch_submit : Int
  batch_complete : Int
  bs : Int
  polled : Bool
  fixedbufs : Bool
  register_files : Bool
  do_nop : Bool
  vectored : Bool

/-- The defaults of the source: `DEPTH`, `BATCH_SUBMIT`, `BATCH_COMPLETE`, `BS`. -/
def default_config : config :=
  { depth := 128, batch_submit := 32, batch_complete := 32, bs := 4096,
    polled := true, fixedbufs := true, register_files := true, do_nop := false,
    vectored := true }

/-! ## Data model -/

/-- `struct file`. -/
structure file where
  max_blocks : Nat
  pending_ios : Nat
  real_fd : Int
  fixed_fd : Int
deriving DecidableEq

/-- The opcodes the program writes into a submission entry. -/
inductive opcode where
  | IORING_OP_NOP
  | IORING_OP_READV
  | IORING_OP_READ_FIXED
  | IORING_OP_READ
deriving DecidableEq

/-- The fields of `struct io_uring_sqe` that `init_io` writes. `fixed_file` is the
`IOSQE_FIXED_FILE` bit of `flags`; `addr` is the buffer slot whose address the
source stores; `user_data` is the index of the target file. -/
structure io_uring_sqe where
  opcode : opcode
  fixed_file : Bool
  ioprio : Nat
  fd : Int
  off : Nat
  addr : Nat
  len : Nat
  buf_index : Nat
  user_data : Nat
deriving DecidableEq

/-- The fields of `struct io_uring_cqe` that `reap_events` reads. -/
structure io_uring_cqe where
  user_data : Nat
  res : Int
deriving DecidableEq

/-- `struct io_sq_ring`, with the values the pointers point to. `ring_mask` is
the value `setup_ring` copies into `sq_ring_mask`. -/
structure io_sq_ring where
  head : Nat
  tail : Nat
  ring_mask : Nat
  ring_entries : Nat
  flags : Nat
  array : Nat → Nat

/-- `struct io_cq_ring`, with the values the pointers point to. `ring_mask` is
the value `setup_ring` copies into `cq_ring_mask`. -/
structure io_cq_ring where
  head : Nat
  tail : Nat
  ring_mask : Nat
  ring_entries : Nat
  cqes : Nat → io_uring_cqe

/-- `struct submitter`. `files` holds the `nr_files` files in use. -/
structure submitter where
  index : Nat
  sq_ring : io_sq_ring
  sqes : Nat → io_uring_sqe
  cq_ring : io_cq_ring
  inflight : Int
  reaps : Nat
  done : Nat
  calls : Nat
  finish : Bool
  files : List file
  cur_file : Nat

/-- The field `nr_files`. -/
def submitter.nr_files (s : submitter) : Nat := s.files.length

/-! ## `file_depth` and `init_io` -/

/-- `file_depth`: `(depth + s->nr_files - 1) / s->nr_files` in `unsigned`. -/
def file_depth (cfg : config) (s : submitter) : Nat :=
  u32 (to_unsigned cfg.depth + s.nr_files + (2 ^ 32 - 1)) / s.nr_files

/-- The file selection of `init_io`: the index of the file `f` points to when
`f->pending_ios++` is reached, and the value of `s->cur_file` at that point. -/
def init_io_file (cfg : config) (s : submitter) : Option (Nat × Nat) :=
  if s.nr_files = 1 then some (0, s.cur_file)
  else
    match s.files.get? s.cur_file with
    | none => none
    | some f =>
      if f.pending_ios ≥ file_depth cfg s then
        let cur := u32 (s.cur_file + 1)
        let cur := if cur = s.nr_files then 0 else cur
        if cur < s.nr_files then some (cur, cur) else none
      else some (s.cur_file, s.cur_file)

/-- The offset of `init_io`: `(r % (f->max_blocks - 1)) * bs` in `unsigned long`;
`none` when the modulus is zero. -/
def init_io_offset (cfg : config) (f : file) (r : Nat) : Option Nat :=
  let m := u64 (f.max_blocks + (2 ^ 64 - 1))
  if m = 0 then none else some (u64 ((r % m) * to_ulong cfg.bs))

/-- The submission entry `init_io` writes for file `f` (index `fi`) at slot
`index` with offset `offset`. -/
def init_io_sqe (cfg : config) (f : file) (fi index offset : Nat) : io_uring_sqe :=
  { opcode := if cfg.fixedbufs then .IORING_OP_READ_FIXED
              else if !cfg.vectored then .IORING_OP_READ else .IORING_OP_READV,
    fixed_file := cfg.register_files,
    ioprio := 0,
    fd := if cfg.register_files then f.fixed_fd else f.real_fd,
    off := offset,
    addr := index,
    len := if cfg.fixedbufs then to_unsigned cfg.bs
           else if !cfg.vectored then to_unsigned cfg.bs else 1,
    buf_index := if cfg.fixedbufs then index else 0,
    user_data := fi }

/-- `init_io(s, index)`, with `r` the value `lrand48()` returns: the file is
chosen (`sel` is its index and the new `cur_file`), its pending count goes up, the
offset is drawn and the entry is written. `none` is a fault. -/
def init_io (cfg : config) (s : submitter) (index r : Nat) : Option submitter :=
  if cfg.do_nop then
    some { s with sqes := Function.update s.sqes index
                    { s.sqes index with opcode := .IORING_OP_NOP } }
  else
    (init_io_file cfg s).bind fun sel =>
    (s.files.get? sel.1).bind fun f0 =>
    let f : file := { f0 with pending_ios := u32 (f0.pending_ios + 1) }
    (init_io_offset cfg f r).map fun offset =>
      { s with cur_file := sel.2,
               files := s.files.set sel.1 f,
               sqes := Function.update s.sqes index (init_io_sqe cfg f sel.1 index offset) }

/-! ## `prep_more_ios` -/

/-- The `do ... while (prepped < max_ios)` loop of `prep_more_ios`. `head` is the
value read from `ring->head`, `rand k` the draw for the request prepared when
`prepped = k`. The first argument bounds the number of iterations; `max_ios`
of them (one when `max_ios` is 0) are always enough (`prep_loop_fuel`). -/
def prep_loop (cfg : config) (rand : Nat → Nat) (head max_ios : Nat) :
    Nat → submitter → Nat → Nat → Nat → Option (submitter × Nat × Nat)
  | 0, _, _, _, _ => none
  | fuel + 1, s, tail, next_tail, prepped =>
    let next_tail := u32 (next_tail + 1)
    if next_tail = head then some (s, tail, prepped)
    else
      let index := tail &&& s.sq_ring.ring_mask
      match init_io cfg s index (rand prepped) with
      | none => none
      | some s1 =>
        let s2 := { s1 with sq_ring :=
                      { s1.sq_ring with array := Function.update s1.sq_ring.array index index } }
        let prepped := u32 (prepped + 1)
        let tail := next_tail
        if prepped < max_ios then prep_loop cfg rand head max_ios fuel s2 tail next_tail prepped
        else some (s2, tail, prepped)

/-- `prep_more_ios(s, max_ios)`: the worker afterwards and the value returned. -/
def prep_more_ios (cfg : config) (rand : Nat → Nat) (s : submitter) (max_ios : Int) :
    Option (submitter × Nat) :=
  match prep_loop cfg rand s.sq_ring.head (to_unsigned max_ios) (to_unsigned max_ios + 1)
      s s.sq_ring.tail s.sq_ring.tail 0 with
  | none => none
  | some (s1, tail, prepped) =>
    if prepped ≠ 0 then
      some ({ s1 with sq_ring := { s1.sq_ring with tail := tail } }, prepped)
    else some (s1, prepped)

/-! ## `reap_events` -/

/-- How the loop of `reap_events` ends. -/
inductive reap_out where
  /-- `break`: ring empty, with the local `head`, `reaped` and the files. -/
  | drained (head reaped : Nat) (files : List file)
  /-- `return -1`: a record with `res != bs`. -/
  | anomaly (files : List file)
  /-- `user_data` names no file of the worker. -/
  | fault
  /-- The iteration bound ran out. -/
  | spin
deriving DecidableEq

/-- The `do ... while (1)` loop of `reap_events`. `tail` is the value read from
`ring->tail`. The first argument bounds the number of iterations. -/
def reap_loop (cfg : config) (cq : io_cq_ring) (tail : Nat) :
    Nat → Nat → Nat → List file → reap_out
  | 0, _, _, _ => .spin
  | fuel + 1, head, reaped, files =>
    if head = tail then .drained head reaped files
    else
      let cqe := cq.cqes (head &&& cq.ring_mask)
      if !cfg.do_nop then
        match files.get? cqe.user_data with
        | none => .fault
        | some f =>
          let files := files.set cqe.user_data
            { f with pending_ios := dec_u32 f.pending_ios }
          if cqe.res ≠ cfg.bs then .anomaly files
          else reap_loop cfg cq tail fuel (u32 (head + 1)) (u32 (reaped + 1)) files
      else reap_loop cfg cq tail fuel (u32 (head + 1)) (u32 (reaped + 1)) files

/-- `reap_events(s)`: the worker afterwards and the value returned; `none` on a
fault. The loop is given `2 ^ 32 + 1` iterations, which it never uses up
(`reap_loop_total`). -/
def reap_events (cfg : config) (s : submitter) : Option (submitter × Int) :=
  match reap_loop cfg s.cq_ring s.cq_ring.tail (2 ^ 32 + 1) s.cq_ring.head 0 s.files with
  | .drained head reaped files =>
    if reaped ≠ 0 then
      some ({ s with files := files, inflight := s.inflight - reaped,
                     cq_ring := { s.cq_ring with head := head } }, reaped)
    else some ({ s with files := files }, reaped)
  | .anomaly files => some ({ s with files := files }, -1)
  | .fault => none
  | .spin => none

/-! ## The kernel, as `submitter_fn` sees it -/

/-- What one `io_uring_enter` call does: the value returned, whether `errno`
is `EAGAIN` when it failed, the value of the submission ring head after the call,
and the completions the kernel posted to the completion ring during the call. -/
structure enter_result where
  ret : Int
  eagain : Bool
  sq_head : Nat
  posted : List io_uring_cqe

/-- The kernel appends completions at the completion ring tail. -/
def post_cqes (cq : io_cq_ring) : List io_uring_cqe → io_cq_ring
  | [] => cq
  | c :: cs =>
    post_cqes { cq with cqes := Function.update cq.cqes (cq.tail &&& cq.ring_mask) c,
                        tail := u32 (cq.tail + 1) } cs

/-- The worker's memory after an `io_uring_enter` call answered by `k`. -/
def kernel_enter (s : submitter) (k : enter_result) : submitter :=
  { s with sq_ring := { s.sq_ring with head := k.sq_head },
           cq_ring := post_cqes s.cq_ring k.posted }

/-! ## `submitter_fn` -/

/-- The places of `submitter_fn` that control is sent to: the top of the
`do` body, the label `submit_more` and the label `submit`. -/
inductive pc where
  | top
  | submit_more
  | submit
deriving DecidableEq

/-- The worker and the locals of `submitter_fn` that live across iterations;
`drawn` counts the `lrand48` calls made so far. -/
structure frame where
  s : submitter
  prepped : Int
  to_submit : Int
  drawn : Nat

/-- What a run of `submitter_fn` does that can be observed. -/
inductive event where
  /-- Control is at the top of the `do` body, with these counters. -/
  | loop_top (done reaps : Nat) (inflight : Int)
  /-- A call `io_uring_enter(s, to_submit, to_wait, flags)`; `getevents` is the
  `IORING_ENTER_GETEVENTS` bit of `flags`, `inflight` is `s->inflight` then. -/
  | enter (to_submit to_wait : Int) (getevents : Bool) (inflight : Int)
  /-- The loop is left and `finish = 1` is executed. -/
  | set_finish
deriving DecidableEq

/-- From a place of the loop up to the computation of `to_wait`: preparation at
the top, `to_submit = prepped` at `submit_more`. -/
def before_enter (cfg : config) (lrand48 : Nat → Nat) (fr : frame) :
    pc → Option (frame × List event)
  | .top =>
    let ev := event.loop_top fr.s.done fr.s.reaps fr.s.inflight
    let prep : Option frame :=
      if fr.prepped = 0 ∧ fr.s.inflight < cfg.depth then
        let to_prep := min (cfg.depth - fr.s.inflight) cfg.batch_submit
        match prep_more_ios cfg (fun k => lrand48 (fr.drawn + k)) fr.s to_prep with
        | none => none
        | some (s1, n) => some { fr with s := s1, prepped := n, drawn := fr.drawn + n }
      else some fr
    match prep with
    | none => none
    | some fr1 =>
      some ({ fr1 with s := { fr1.s with inflight := fr1.s.inflight + fr1.prepped },
                       to_submit := fr1.prepped }, [ev])
  | .submit_more => some ({ fr with to_submit := fr.prepped }, [])
  | .submit => some (fr, [])

/-- The value of `to_wait` computed at the label `submit`. -/
def to_wait (cfg : config) (fr : frame) : Int :=
  if fr.to_submit ≠ 0 ∧ fr.s.inflight + fr.to_submit ≤ cfg.depth then 0
  else min (fr.s.inflight + fr.to_submit) cfg.batch_complete

/-- Whether `io_uring_enter` is called: `!sq_thread_poll || ring_flags &
IORING_SQ_NEED_WAKEUP`, where `ring_flags` is 0 unless `sq_thread_poll`. -/
def calls_enter (fr : frame) : Bool :=
  let ring_flags := if sq_thread_poll then fr.s.sq_ring.flags else 0
  !sq_thread_poll || (ring_flags &&& 1 != 0)

/-- The `enter` event of a frame standing at the call. -/
def enter_event (cfg : config) (fr : frame) : event :=
  .enter fr.to_submit (to_wait cfg fr) (to_wait cfg fr != 0) fr.s.inflight

/-- From the `io_uring_enter` call answered by `k` to the next jump: the call
(`s->calls++`, `ret`), the reap (the `do ... while (sq_thread_poll && ...)` body
runs once, as `sq_thread_poll` is 0), then the case analysis on `ret`. The
result is the frame and the place control goes to, `none` for leaving the loop;
the outer `none` is a fault in `reap_events`. -/
def after_enter (cfg : config) (fr : frame) (k : enter_result) :
    Option (frame × Option pc) :=
  let s := if calls_enter fr then { kernel_enter fr.s k with calls := fr.s.calls + 1 } else fr.s
  let ret := if calls_enter fr then k.ret else fr.to_submit
  match reap_events cfg s with
  | none => none
  | some (s, r) =>
    let s := if r = -1 then { s with finish := true } else s
    let this_reap : Int := if r = -1 then 0 else if r > 0 then r else 0
    let s := { s with reaps := s.reaps + this_reap.toNat }
    let next_iteration : Option pc := if !s.finish then some .top else none
    if ret ≥ 0 then
      if ret = 0 then
        if s.inflight ≠ 0 then some ({ fr with s := s, to_submit := 0 }, some .submit)
        else some ({ fr with s := s, to_submit := 0 }, next_iteration)
      else if ret < fr.to_submit then
        let diff := fr.to_submit - ret
        some ({ fr with s := { s with done := s.done + ret.toNat },
                        prepped := fr.prepped - diff }, some .submit_more)
      else
        some ({ fr with s := { s with done := s.done + ret.toNat }, prepped := 0 },
              next_iteration)
    else
      if k.eagain then
        if s.finish then some ({ fr with s := s }, none)
        else if this_reap ≠ 0 then some ({ fr with s := s }, some .submit)
        else some ({ fr with s := s, to_submit := 0 }, some .submit)
      else some ({ fr with s := s }, none)

/-- The state of a run when the kernel script is used up or the worker is done. -/
inductive status where
  /-- The worker is inside an `io_uring_enter` call the script does not answer. -/
  | in_enter
  /-- `submitter_fn` has returned. -/
  | returned
  /-- A fault. -/
  | crashed
deriving DecidableEq

/-- A run: its events in order, the last frame, how it stands, and the
file-scope `finish`. -/
structure run where
  trace : List event
  fr : frame
  st : status
  finish : Bool

/-- The loop of `submitter_fn` from place `p`, against the kernel answers
`script` (one per `io_uring_enter` call, in order). -/
def submitter_loop (cfg : config) (lrand48 : Nat → Nat) :
    List enter_result → frame → pc → run
  | [], fr, p =>
    match before_enter cfg lrand48 fr p with
    | none => { trace := [], fr := fr, st := .crashed, finish := false }
    | some (fr1, evs) =>
      { trace := evs ++ [enter_event cfg fr1], fr := fr1, st := .in_enter, finish := false }
  | k :: script, fr, p =>
    match before_enter cfg lrand48 fr p with
    | none => { trace := [], fr := fr, st := .crashed, finish := false }
    | some (fr1, evs) =>
      match after_enter cfg fr1 k with
      | none =>
        { trace := evs ++ [enter_event cfg fr1], fr := fr1, st := .crashed, finish := false }
      | some (fr2, none) =>
        { trace := evs ++ [enter_event cfg fr1, .set_finish], fr := fr2, st := .returned,
          finish := true }
      | some (fr2, some p2) =>
        let r := submitter_loop cfg lrand48 script fr2 p2
        { r with trace := evs ++ enter_event cfg fr1 :: r.trace }

/-- `submitter_fn(s)`: `prepped = 0`, then the loop from its top. -/
def submitter_fn (cfg : config) (lrand48 : Nat → Nat) (script : List enter_result)
    (s : submitter) : run :=
  submitter_loop cfg lrand48 script { s := s, prepped := 0, to_submit := 0, drawn := 0 } .top

/-! ## `main`: sizing a file -/

/-- The two kinds of target `get_file_size` accepts. -/
inductive file_kind where
  | blk
  | reg
deriving DecidableEq

/-- `get_file_size`: `max_blocks` for a target of `bytes` bytes, `bytes / bs`
(in `unsigned long long` for a block device, in `long` for a regular file);
`none` when `bs` is 0. -/
def get_file_size (cfg : config) (kind : file_kind) (bytes : Nat) : Option Nat :=
  if cfg.bs = 0 then none
  else match kind with
    | .blk => some (bytes / to_ulong cfg.bs)
    | .reg => some (to_ulong (Int.tdiv bytes cfg.bs))

/-- The size check of `main` on one opened target: `none` when `main` returns 1,
else the `struct file` it goes on with (`f.max_blocks--`). -/
def main_size_file (cfg : config) (kind : file_kind) (fd : Int) (bytes : Nat) : Option file :=
  match get_file_size cfg kind bytes with
  | none => none
  | some max_blocks =>
    if max_blocks ≤ 1 then none
    else some { max_blocks := u64 (max_blocks + (2 ^ 64 - 1)), pending_ios := 0,
                real_fd := fd, fixed_fd := 0 }

/-! ## `main`: distributing the files -/

/-- The `for (k = 0; k < limit; k++)` loop for file number `i`: `ws w` lists the
files of worker `w`; the first argument is `limit - k`. -/
def assign_file (nthreads i j : Nat) : Nat → Nat → (Nat → List Nat) → (Nat → List Nat)
  | 0, _, ws => ws
  | n + 1, k, ws =>
    let w := (j + k) % nthreads
    if (ws w).length = MAX_FDS then ws
    else assign_file nthreads i j n (k + 1) (Function.update ws w (ws w ++ [i]))

/-- The `while (!do_nop && i < argc)` loop over the files not yet seen; the
first argument is their number, `i` the number of the next one. -/
def assign_loop (nthreads threads_per_f : Nat) :
    Nat → Nat → Nat → Int → (Nat → List Nat) → (Nat → List Nat)
  | 0, _, _, _, ws => ws
  | n + 1, i, j, threads_rem, ws =>
    let limit := threads_per_f + (if threads_rem > 0 then 1 else 0)
    let ws := assign_file nthreads i j limit 0 ws
    assign_loop nthreads threads_per_f n (i + 1) (j + limit) (threads_rem - 1) ws

/-- The file distribution of `main` (no-op mode off) for `nfiles` files that all
open and size; the files are numbered from 0 in command-line order. -/
def main_assign (nthreads nfiles : Nat) : Nat → List Nat :=
  let threads_per_f := nthreads / nfiles
  let threads_rem : Int := if threads_per_f = 0 then 0 else nthreads - threads_per_f * nfiles
  let threads_per_f := if threads_per_f = 0 then 1 else threads_per_f
  assign_loop nthreads threads_per_f nfiles 0 0 threads_rem (fun _ => [])

/-! ## `main`: summing the counters -/

/-- The `for (j = 0; j < nthreads; j++)` loop of the reporting loop. `s` is the
submitter the variable `s` points to, `acc` is `(this_done, this_call, this_reap)`. -/
def report_loop (s : submitter) : Nat → Nat × Nat × Nat → Nat × Nat × Nat
  | 0, acc => acc
  | n + 1, (this_done, this_call, this_reap) =>
    report_loop s n (u64 (this_done + s.done), u64 (this_call + s.calls),
                     u64 (this_reap + s.reaps))

/-- One pass of the reporting loop over the submitters `subs` (`nthreads` is
their number): `(this_done, this_call, this_reap)`. The variable `s` still
holds what the thread-creation loop left in it, `get_submitter(nthreads - 1)`. -/
def main_report (subs : List submitter) : Nat × Nat × Nat :=
  match subs.getLast? with
  | none => (0, 0, 0)
  | some s => report_loop s subs.length (0, 0, 0)

/-! ## Starting states and the vocabulary of the statements -/

/-- A submission entry of freshly mapped memory. -/
def zero_sqe : io_uring_sqe :=
  { opcode := .IORING_OP_NOP, fixed_file := false, ioprio := 0, fd := 0, off := 0, addr := 0,
    len := 0, buf_index := 0, user_data := 0 }

/-- A worker as `main` and `setup_ring` leave it before `submitter_fn` starts:
zeroed counters, its files, and empty rings of `entries` submission slots and
`2 * entries` completion slots. -/
def fresh_submitter (entries : Nat) (files : List file) : submitter :=
  { index := 0,
    sq_ring := { head := 0, tail := 0, ring_mask := entries - 1, ring_entries := entries,
                 flags := 0, array := fun _ => 0 },
    sqes := fun _ => zero_sqe,
    cq_ring := { head := 0, tail := 0, ring_mask := 2 * entries - 1,
                 ring_entries := 2 * entries, cqes := fun _ => { user_data := 0, res := 0 } },
    inflight := 0, reaps := 0, done := 0, calls := 0, finish := false,
    files := files, cur_file := 0 }

/-- A file of 16 blocks as `main` stores it (`max_blocks` already lowered by one). -/
def file16 : file := { max_blocks := 15, pending_ios := 0, real_fd := 3, fixed_fd := 0 }

/-- The number of completion records between head and tail: `tail - head` in
`unsigned` arithmetic. -/
def cq_ready (cq : io_cq_ring) : Nat := u32 (cq.tail + 2 ^ 32 - cq.head)

/-- The `n` completion records from index `head` on, in ring order. -/
def records_from (cq : io_cq_ring) (head n : Nat) : List io_uring_cqe :=
  (List.range n).map fun j => cq.cqes (u32 (head + j) &&& cq.ring_mask)

/-- The completion records between the ring's head and tail. -/
def records (cq : io_cq_ring) : List io_uring_cqe :=
  records_from cq cq.head (cq_ready cq)

/-- The files after the pending count of the file named by `c` is decremented. -/
def reap_file (files : List file) (c : io_uring_cqe) : List file :=
  match files.get? c.user_data with
  | none => files
  | some f => files.set c.user_data { f with pending_ios := dec_u32 f.pending_ios }

/-- `ceil(a / b)` on naturals. -/
def ceil_div (a b : Nat) : Nat := (a + b - 1) / b

/-- A distribution `ws` of `F` files over `W` workers is balanced and total: every
worker has between `floor(F / W)` and `ceil(F / W)` files and every file is with at
least one worker. -/
def balanced_total (W F : Nat) (ws : Nat → List Nat) : Prop :=
  (∀ w, w < W → F / W ≤ (ws w).length ∧ (ws w).length ≤ ceil_div F W) ∧
  (∀ i, i < F → ∃ w, w < W ∧ i ∈ ws w)

/-- The number of completion records between head and tail that name file `i`. -/
def ready_for (cq : io_cq_ring) (i : Nat) : Nat :=
  (records cq).countP fun c => c.user_data = i

/-- A worker with two completions ready for its only file. -/
def two_ready : submitter :=
  { fresh_submitter 4 [{ file16 with pending_ios := 2 }] with
    inflight := 2,
    cq_ring := { head := 4294967295, tail := 1, ring_mask := 7, ring_entries := 8,
                 cqes := fun _ => { user_data := 0, res := 4096 } } }

/-- What the distribution has done when file `i` is next and worker slot `j`
is next, if the workers are at least as many as the files: the workers below `j`
hold one file each, the others none, and the files below `i` are placed. -/
def wide_inv (W i j : Nat) (ws : Nat → List Nat) : Prop :=
  (∀ w, w < W → (ws w).length = if w < j then 1 else 0) ∧
  (∀ x, x < i → ∃ w, w < W ∧ x ∈ ws w)

/-- What the distribution has done when file `i` is next, if the files outnumber
the workers: worker `w` holds the files below `i` that are `w` modulo `W`. -/
def narrow_inv (W i : Nat) (ws : Nat → List Nat) : Prop :=
  (∀ w, w < W → (ws w).length = i / W + if w < i % W then 1 else 0) ∧
  (∀ x, x < i → ∃ w, w < W ∧ x ∈ ws w)

/-! # Theorems -/

/-! ### reap_events -/

theorem records_from_succ (cq : io_cq_ring) (head n : Nat) :
    records_from cq head (n + 1)
      = cq.cqes (u32 head &&& cq.ring_mask) :: records_from cq (u32 (head + 1)) n := by
  unfold records_from
  rw [List.range_succ_eq_map, List.map_cons, List.map_map]
  congr 1
  apply List.map_congr_left
  intro j _
  simp only [Function.comp, u32]
  congr 2
  omega

theorem reap_file_length (files : List file) (c : io_uring_cqe) :
    (reap_file files c).length = files.length := by
  unfold reap_file
  split <;> simp

theorem foldl_reap_file_length (recs : List io_uring_cqe) (files : List file) :
    (recs.foldl reap_file files).length = files.length := by
  induction recs generalizing files with
  | nil => rfl
  | cons c cs ih => rw [List.foldl_cons, ih, reap_file_length]

/-- The loop of `reap_events` on `n` well-formed records: it leaves at `break`
with the head at the tail, `n` more reaped, and every record's file decremented. -/
theorem reap_loop_drained (cfg : config) (hnop : cfg.do_nop = false) (cq : io_cq_ring)
    (tail : Nat) :
    ∀ (n fuel head reaped : Nat) (files : List file),
      n < fuel → head < 2 ^ 32 → n < 2 ^ 32 → reaped < 2 ^ 32 → tail = u32 (head + n) →
      (∀ c ∈ records_from cq head n, c.res = cfg.bs ∧ c.user_data < files.length) →
      reap_loop cfg cq tail fuel head reaped files
        = .drained tail (u32 (reaped + n)) ((records_from cq head n).foldl reap_file files) := by
  intro n
  induction n with
  | zero =>
    intro fuel head reaped files hf hh _ hr ht _
    obtain ⟨fuel, rfl⟩ : ∃ k, fuel = k + 1 := ⟨fuel - 1, by omega⟩
    have : head = tail := by rw [ht]; simp only [u32]; omega
    subst this
    have hr2 : u32 reaped = reaped := by simp only [u32]; omega
    simp [reap_loop, records_from, hr2]
  | succ n ih =>
    intro fuel head reaped files hf hh hn hr ht hrec
    obtain ⟨fuel, rfl⟩ : ∃ k, fuel = k + 1 := ⟨fuel - 1, by omega⟩
    have hne : head ≠ tail := by rw [ht]; simp only [u32]; omega
    rw [records_from_succ] at hrec ⊢
    have hu : u32 head = head := by simp only [u32]; omega
    rw [hu] at hrec ⊢
    have h0 := hrec _ (List.mem_cons_self _ _)
    obtain ⟨f, hf0⟩ : ∃ f, files.get? (cq.cqes (head &&& cq.ring_mask)).user_data = some f := by
      rw [List.get?_eq_get h0.2]; exact ⟨_, rfl⟩
    rw [reap_loop, if_neg hne]
    simp only [hnop, Bool.not_false, if_true, hf0, h0.1, ne_eq, not_true_eq_false, if_false]
    rw [ih fuel (u32 (head + 1)) (u32 (reaped + 1)) _ (by omega) (by simp only [u32]; omega)
      (by omega) (by simp only [u32]; omega) (by rw [ht]; simp only [u32]; omega)]
    · rw [List.foldl_cons]
      congr 1
      · simp only [u32]; omega
      · simp only [reap_file, hf0]
    · intro c hc
      have := hrec c (List.mem_cons_of_mem _ hc)
      simpa using this

/-- The loop of `reap_events` ends within `tail - head + 1` iterations. -/
theorem reap_loop_total (cfg : config) (cq : io_cq_ring) (tail : Nat) :
    ∀ (n fuel head reaped : Nat) (files : List file),
      n < fuel → head < 2 ^ 32 → n < 2 ^ 32 → tail = u32 (head + n) →
      reap_loop cfg cq tail fuel head reaped files ≠ .spin := by
  intro n
  induction n with
  | zero =>
    intro fuel head reaped files hf hh _ ht
    obtain ⟨fuel, rfl⟩ : ∃ k, fuel = k + 1 := ⟨fuel - 1, by omega⟩
    have : head = tail := by rw [ht]; simp only [u32]; omega
    simp [reap_loop, this]
  | succ n ih =>
    intro fuel head reaped files hf hh hn ht
    obtain ⟨fuel, rfl⟩ : ∃ k, fuel = k + 1 := ⟨fuel - 1, by omega⟩
    have hne : head ≠ tail := by rw [ht]; simp only [u32]; omega
    have hnext : ∀ (r : Nat) (fs : List file),
        reap_loop cfg cq tail fuel (u32 (head + 1)) r fs ≠ .spin := fun r fs =>
      ih fuel (u32 (head + 1)) r fs (by omega) (by simp only [u32]; omega) (by omega)
        (by rw [ht]; simp only [u32]; omega)
    rw [reap_loop, if_neg hne]
    dsimp only
    split
    · split
      · simp
      · split
        · simp
        · exact hnext _ _
    · exact hnext _ _


/-- Reaping a list of records decrements each file once per record naming it. -/
theorem foldl_reap_file_get (recs : List io_uring_cqe) :
    ∀ (files : List file) (i : Nat) (f : file), files.get? i = some f →
      (recs.foldl reap_file files).get? i
        = some { f with pending_ios :=
                   dec_u32^[recs.countP (fun c => c.user_data = i)] f.pending_ios } := by
  induction recs with
  | nil => intro files i f h; exact h
  | cons c cs ih =>
    intro files i f h
    rw [List.foldl_cons]
    have hlt : i < files.length := by
      rcases Nat.lt_or_ge i files.length with h' | h'
      · exact h'
      · rw [List.get?_eq_none.mpr h'] at h; cases h
    by_cases hc : c.user_data = i
    · have h1 : (reap_file files c).get? i
          = some { f with pending_ios := dec_u32 f.pending_ios } := by
        simp only [reap_file, hc, h]
        rw [List.get?_eq_getElem?, List.getElem?_set_self hlt]
      rw [ih _ i _ h1, List.countP_cons_of_pos _ _ (by simpa using hc),
        Function.iterate_succ_apply]
    · have h1 : (reap_file files c).get? i = some f := by
        unfold reap_file
        split
        · exact h
        · rw [← h, List.get?_eq_getElem?, List.get?_eq_getElem?, List.getElem?_set_ne hc]
      rw [ih _ i _ h1, List.countP_cons_of_neg _ _ (by simpa using hc)]

theorem dec_u32_iterate (c p : Nat) (hc : c ≤ p) (hp : p < 2 ^ 32) :
    dec_u32^[c] p = p - c := by
  induction c generalizing p with
  | zero => rfl
  | succ c ih =>
    rw [Function.iterate_succ_apply]
    have : dec_u32 p = p - 1 := by simp only [dec_u32, u32]; omega
    rw [this, ih (p - 1) (by omega) (by omega)]
    omega




/-- C6. Drain consumes every available completion exactly once: with no-op mode
off, on a completion ring whose records between head and tail all have result
`bs` and name a file of the worker, `reap_events` returns `tail - head` (unsigned),
sets the head to the tail, lowers `inflight` by that number and decrements each
file's pending count once per record naming it (so by their number when the count
does not wrap). -/
theorem reap_events_drains (cfg : config) (s : submitter)
    (hnop : cfg.do_nop = false)
    (hh : s.cq_ring.head < 2 ^ 32) (ht : s.cq_ring.tail < 2 ^ 32)
    (hrec : ∀ c ∈ records s.cq_ring, c.res = cfg.bs ∧ c.user_data < s.nr_files) :
    ∃ s', reap_events cfg s = some (s', (cq_ready s.cq_ring : Int)) ∧
      s'.cq_ring.head = s.cq_ring.tail ∧
      s'.cq_ring.tail = s.cq_ring.tail ∧
      s'.inflight = s.inflight - cq_ready s.cq_ring ∧
      s'.files.length = s.files.length ∧
      ∀ i f, s.files.get? i = some f →
        s'.files.get? i
          = some { f with pending_ios := dec_u32^[ready_for s.cq_ring i] f.pending_ios } ∧
        (ready_for s.cq_ring i ≤ f.pending_ios → f.pending_ios < 2 ^ 32 →
          s'.files.get? i
            = some { f with pending_ios := f.pending_ios - ready_for s.cq_ring i }) := by
  have hn : cq_ready s.cq_ring < 2 ^ 32 := by simp only [cq_ready, u32]; omega
  have htail : s.cq_ring.tail = u32 (s.cq_ring.head + cq_ready s.cq_ring) := by
    simp only [cq_ready, u32]; omega
  have hloop := reap_loop_drained cfg hnop s.cq_ring s.cq_ring.tail (cq_ready s.cq_ring)
    (2 ^ 32 + 1) s.cq_ring.head 0 s.files (by omega) hh hn (by norm_num) htail hrec
  have hu : u32 (0 + cq_ready s.cq_ring) = cq_ready s.cq_ring := by
    simp only [u32]; omega
  rw [hu] at hloop
  have hpost : ∀ i f, s.files.get? i = some f →
      ((records s.cq_ring).foldl reap_file s.files).get? i
        = some { f with pending_ios := dec_u32^[ready_for s.cq_ring i] f.pending_ios } ∧
      (ready_for s.cq_ring i ≤ f.pending_ios → f.pending_ios < 2 ^ 32 →
        ((records s.cq_ring).foldl reap_file s.files).get? i
          = some { f with pending_ios := f.pending_ios - ready_for s.cq_ring i }) := by
    intro i f h
    have hfi := foldl_reap_file_get (records s.cq_ring) s.files i f h
    refine ⟨hfi, fun hc hp => ?_⟩
    rw [hfi]
    unfold ready_for at hc ⊢
    rw [dec_u32_iterate _ _ hc hp]
  by_cases h0 : cq_ready s.cq_ring = 0
  · have hht : s.cq_ring.head = s.cq_ring.tail := by
      rw [htail, h0]; simp only [u32]; omega
    refine ⟨{ s with files := (records s.cq_ring).foldl reap_file s.files }, ?_, hht, rfl, ?_,
      foldl_reap_file_length _ _, hpost⟩
    · simp only [reap_events, hloop, records, h0]
      simp
    · simp [h0]
  · refine ⟨{ s with files := (records s.cq_ring).foldl reap_file s.files,
                     inflight := s.inflight - cq_ready s.cq_ring,
                     cq_ring := { s.cq_ring with head := s.cq_ring.tail } }, ?_, rfl, rfl, rfl,
      foldl_reap_file_length _ _, hpost⟩
    simp only [reap_events, hloop, records]
    simp [h0]

/-- C6 (witness): a ring with head `2 ^ 32 - 1` and tail 1, two records for the
only file, which has two requests pending. -/
theorem reap_events_drains_witness :
    (default_config.do_nop = false ∧ two_ready.cq_ring.head < 2 ^ 32 ∧
      two_ready.cq_ring.tail < 2 ^ 32 ∧
      ∀ c ∈ records two_ready.cq_ring,
        c.res = default_config.bs ∧ c.user_data < two_ready.nr_files) ∧
    ∃ s', reap_events default_config two_ready = some (s', (cq_ready two_ready.cq_ring : Int)) ∧
      s'.cq_ring.head = two_ready.cq_ring.tail ∧
      s'.cq_ring.tail = two_ready.cq_ring.tail ∧
      s'.inflight = two_ready.inflight - cq_ready two_ready.cq_ring ∧
      s'.files.length = two_ready.files.length ∧
      ∀ i f, two_ready.files.get? i = some f →
        s'.files.get? i
          = some { f with pending_ios := dec_u32^[ready_for two_ready.cq_ring i] f.pending_ios } ∧
        (ready_for two_ready.cq_ring i ≤ f.pending_ios → f.pending_ios < 2 ^ 32 →
          s'.files.get? i
            = some { f with pending_ios := f.pending_ios - ready_for two_ready.cq_ring i }) :=
  ⟨⟨rfl, by decide, by decide, by decide⟩,
   reap_events_drains default_config two_ready rfl (by decide) (by decide) (by decide)⟩

/-- C1 (the code at a failing input). With depth 8 and batch 4 the first
`io_uring_enter` call requests 4 submissions; the kernel accepts 1 and posts no
completion. The next call follows without a new preparation, but it requests 1
(the number accepted), not the 3 that were not accepted. -/
theorem short_accept_requests_accepted_count :
    (submitter_fn { default_config with depth := 8, batch_submit := 4 } (fun _ => 7)
      [{ ret := 1, eagain := false, sq_head := 1, posted := [] }]
      (fresh_submitter 8 [file16])).trace
    = [.loop_top 0 0 0, .enter 4 0 false 4, .enter 1 0 false 4] := by
  decide

/-- C2 (the code at a failing input). Depth 4, batch 4: the kernel accepts 1
of the 4 requested, then 1 of the 1 requested, and completes nothing. The worker
is back at the top of its loop with `done = 2`, `reaps = 0` and `inflight = 4`. -/
theorem loop_top_breaks_conservation :
    (submitter_fn { default_config with depth := 4, batch_submit := 4 } (fun _ => 7)
      [{ ret := 1, eagain := false, sq_head := 1, posted := [] },
       { ret := 1, eagain := false, sq_head := 2, posted := [] }]
      (fresh_submitter 4 [file16])).trace
    = [.loop_top 0 0 0, .enter 4 8 true 4, .enter 1 5 true 4, .loop_top 2 0 4,
       .enter 0 4 true 4] := by
  decide

/-- Scenario A: depth 4, batch 4, one file of 16 blocks, block size 4096, and a
kernel that accepts all 4 and completes all 4. After the cycle the worker has
`done = 4`, `reaps = 4`, `inflight = 0`, the file has no request pending, and
control goes to the top of the loop. -/
theorem scenario_A :
    ((before_enter { default_config with depth := 4, batch_submit := 4 } (fun _ => 7)
        { s := fresh_submitter 4 [file16], prepped := 0, to_submit := 0, drawn := 0 } .top).bind
      fun p => after_enter { default_config with depth := 4, batch_submit := 4 } p.1
        { ret := 4, eagain := false, sq_head := 4,
          posted := [⟨0, 4096⟩, ⟨0, 4096⟩, ⟨0, 4096⟩, ⟨0, 4096⟩] }).map
      (fun q => (q.1.s.done, q.1.s.reaps, q.1.s.inflight, q.1.s.files.map (·.pending_ios), q.2))
    = some (4, 4, 0, [0], some .top) := by
  decide

/-- C5 (the code at a failing input). Depth 8, batch 4: the kernel accepts 2 of
the 4 requested and posts a completion with result -5. `reap_events` reports the
anomaly and the worker sets its own `finish`, yet it calls `io_uring_enter` again
(requesting 2) and the file-scope `finish` is not set. -/
theorem anomaly_with_short_accept_enters_again :
    (fun r : run => (r.trace, r.st, r.fr.s.finish, r.finish))
      (submitter_fn { default_config with depth := 8, batch_submit := 4 } (fun _ => 7)
        [{ ret := 2, eagain := false, sq_head := 2, posted := [⟨0, -5⟩] }]
        (fresh_submitter 8 [file16]))
    = ([.loop_top 0 0 0, .enter 4 0 false 4, .enter 2 0 false 4], .in_enter, true, false) := by
  decide

/-- The same anomaly after a full accept, and after `EAGAIN`, ends the worker:
no further `io_uring_enter` call, and `finish = 1`. -/
theorem anomaly_with_full_accept_or_eagain_returns :
    (fun r : run => (r.trace, r.st, r.finish))
      (submitter_fn { default_config with depth := 8, batch_submit := 4 } (fun _ => 7)
        [{ ret := 4, eagain := false, sq_head := 4, posted := [⟨0, -5⟩] }]
        (fresh_submitter 8 [file16]))
    = ([.loop_top 0 0 0, .enter 4 0 false 4, .set_finish], .returned, true) ∧
    (fun r : run => (r.trace, r.st, r.finish))
      (submitter_fn { default_config with depth := 8, batch_submit := 4 } (fun _ => 7)
        [{ ret := -1, eagain := true, sq_head := 0, posted := [⟨0, -5⟩] }]
        (fresh_submitter 8 [file16]))
    = ([.loop_top 0 0 0, .enter 4 0 false 4, .set_finish], .returned, true) := by
  decide

/-- C7 (the code at a failing input). A regular file of 8192 bytes with block
size 4096 measures 2 blocks and passes the size check of `main`, which stores
`max_blocks = 1`; the modulus `max_blocks - 1` of `init_io` is then 0, for every
draw `r`: the offset is undefined and `init_io` faults. -/
theorem two_block_file_has_zero_modulus (r index : Nat) :
    main_size_file default_config .reg 3 8192
      = some { max_blocks := 1, pending_ios := 0, real_fd := 3, fixed_fd := 0 } ∧
    init_io_offset default_config
      { max_blocks := 1, pending_ios := 0, real_fd := 3, fixed_fd := 0 } r = none ∧
    (init_io default_config
      (fresh_submitter 4 [{ max_blocks := 1, pending_ios := 0, real_fd := 3, fixed_fd := 0 }])
      index r).isNone = true := by
  refine ⟨by decide, ?_, ?_⟩
  · simp [init_io_offset, u64]
  · simp [init_io, default_config, init_io_file, fresh_submitter, submitter.nr_files,
      init_io_offset, u64]

/-- C9 (the code at a failing input). Two workers with `done` 1 and 0, `calls`
2 and 0, `reaps` 3 and 0: the reporting loop computes the totals `(0, 0, 0)`, twice
the counters of the last worker, where the sums over the workers are `(1, 2, 3)`. -/
theorem main_report_counts_last_worker_only :
    main_report [{ fresh_submitter 4 [file16] with done := 1, calls := 2, reaps := 3 },
                 fresh_submitter 4 [file16]] = (0, 0, 0) ∧
    (([{ fresh_submitter 4 [file16] with done := 1, calls := 2, reaps := 3 },
       fresh_submitter 4 [file16]].map (·.done)).sum,
     ([{ fresh_submitter 4 [file16] with done := 1, calls := 2, reaps := 3 },
       fresh_submitter 4 [file16]].map (·.calls)).sum,
     ([{ fresh_submitter 4 [file16] with done := 1, calls := 2, reaps := 3 },
       fresh_submitter 4 [file16]].map (·.reaps)).sum) = (1, 2, 3) := by
  decide

/-- C3 (counterexample). With 17 files and 1 worker the worker holds 16 files,
fewer than `floor(17 / 1)`, and file 16 is with no worker. -/
theorem main_assign_17_files_1_worker_not_balanced_total :
    ¬ balanced_total 1 17 (main_assign 1 17) := by
  intro h
  obtain ⟨w, hw, hmem⟩ := h.2 16 (by norm_num)
  have hw0 : w = 0 := by omega
  subst hw0
  revert hmem
  decide

theorem assign_file_mono (W i j : Nat) :
    ∀ (m k : Nat) (ws : Nat → List Nat) (w x : Nat),
      x ∈ ws w → x ∈ assign_file W i j m k ws w := by
  intro m
  induction m with
  | zero => intro k ws w x h; exact h
  | succ m ih =>
    intro k ws w x h
    rw [assign_file]
    split
    · exact h
    · apply ih
      by_cases hw : w = (j + k) % W
      · subst hw
        rw [Function.update_same]
        exact List.mem_append_left _ h
      · rw [Function.update_noteq hw]
        exact h

/-- Without wrap-around and without a full worker, the inner loop gives file `i`
to the workers `j + k, ..., j + k + m - 1`. -/
theorem assign_file_block (W i j : Nat) :
    ∀ (m k : Nat) (ws : Nat → List Nat), j + k + m ≤ W →
      (∀ w, j + k ≤ w → w < j + k + m → (ws w).length ≠ MAX_FDS) →
      assign_file W i j m k ws
        = fun w => if j + k ≤ w ∧ w < j + k + m then ws w ++ [i] else ws w := by
  intro m
  induction m with
  | zero =>
    intro k ws _ _
    funext w
    rw [assign_file, if_neg (by omega)]
  | succ m ih =>
    intro k ws hle hlen
    have hmod : (j + k) % W = j + k := Nat.mod_eq_of_lt (by omega)
    rw [assign_file]
    rw [hmod, if_neg (hlen (j + k) (le_refl _) (by omega))]
    rw [ih (k + 1) _ (by omega)]
    · funext w
      by_cases h1 : w = j + k
      · subst h1
        rw [if_neg (by omega), if_pos (by omega), Function.update_same]
      · rw [Function.update_noteq h1]
        by_cases h2 : j + k ≤ w ∧ w < j + k + (m + 1)
        · rw [if_pos h2, if_pos (by omega)]
        · rw [if_neg h2, if_neg (by omega)]
    · intro w h1 h2
      rw [Function.update_noteq (by omega)]
      exact hlen w (by omega) (by omega)

theorem assign_loop_wide (W tpf rem : Nat) (htpf : 1 ≤ tpf) :
    ∀ (n i j : Nat) (threads_rem : Int) (ws : Nat → List Nat),
      threads_rem = (rem : Int) - i → j = i * tpf + min i rem →
      (i + n) * tpf + min (i + n) rem ≤ W →
      wide_inv W i j ws →
      wide_inv W (i + n) ((i + n) * tpf + min (i + n) rem)
        (assign_loop W tpf n i j threads_rem ws) := by
  intro n
  induction n with
  | zero =>
    intro i j tr ws _ hj _ hinv
    rw [assign_loop]
    simpa [hj] using hinv
  | succ n ih =>
    intro i j tr ws htr hj hW hinv
    rw [assign_loop]
    have hlim : (tpf + if tr > 0 then 1 else 0) = tpf + (if i < rem then 1 else 0) := by
      congr 1
      by_cases h : i < rem
      · rw [if_pos h, if_pos (by omega)]
      · rw [if_neg h, if_neg (by omega)]
    rw [hlim]
    have hmul : (i + 1) * tpf = i * tpf + tpf := by ring
    have hmono : (i + 1) * tpf ≤ (i + (n + 1)) * tpf :=
      Nat.mul_le_mul_right _ (by omega)
    have hj' : j + (tpf + if i < rem then 1 else 0) = (i + 1) * tpf + min (i + 1) rem := by
      rw [hj, hmul]
      by_cases h : i < rem
      · rw [if_pos h]; omega
      · rw [if_neg h]; omega
    have hjW : j + (tpf + if i < rem then 1 else 0) ≤ W := by
      rw [hj']
      have : min (i + 1) rem ≤ min (i + (n + 1)) rem := by omega
      omega
    have hblock := assign_file_block W i j (tpf + if i < rem then 1 else 0) 0 ws
      (by omega) (by
        intro w h1 h2
        rw [hinv.1 w (by omega), if_neg (by omega)]
        decide)
    rw [hblock]
    have hadd : i + (n + 1) = (i + 1) + n := by omega
    rw [hadd] at hW ⊢
    apply ih (i + 1) _ (tr - 1) _ (by rw [htr]; push_cast; ring) hj' hW
    constructor
    · intro w hw
      dsimp only
      by_cases h1 : j + 0 ≤ w ∧ w < j + 0 + (tpf + if i < rem then 1 else 0)
      · rw [if_pos h1, List.length_append, hinv.1 w hw, if_neg (by omega), if_pos (by omega)]
        rfl
      · rw [if_neg h1, hinv.1 w hw]
        by_cases h2 : w < j
        · rw [if_pos h2, if_pos (by omega)]
        · rw [if_neg h2, if_neg (by omega)]
    · intro x hx
      by_cases hxi : x = i
      · subst hxi
        refine ⟨j, by omega, ?_⟩
        dsimp only
        rw [if_pos (by omega)]
        exact List.mem_append_right _ (List.mem_singleton_self _)
      · obtain ⟨w, hw, hmem⟩ := hinv.2 x (by omega)
        refine ⟨w, hw, ?_⟩
        dsimp only
        by_cases h1 : j + 0 ≤ w ∧ w < j + 0 + (tpf + if i < rem then 1 else 0)
        · rw [if_pos h1]
          exact List.mem_append_left _ hmem
        · rw [if_neg h1]
          exact hmem

theorem succ_div_mod_count (W i w : Nat) (hW : 0 < W) (hw : w < W) :
    ((i + 1) / W + if w < (i + 1) % W then 1 else 0)
      = (i / W + if w < i % W then 1 else 0) + if w = i % W then 1 else 0 := by
  have hdm := Nat.div_add_mod i W
  have hr := Nat.mod_lt i hW
  by_cases hlast : i % W + 1 = W
  · have h1 : i + 1 = W * (i / W + 1) := by rw [Nat.mul_add, Nat.mul_one]; omega
    have hd : (i + 1) / W = i / W + 1 := by rw [h1, Nat.mul_div_cancel_left _ hW]
    have hm : (i + 1) % W = 0 := by rw [h1, Nat.mul_mod_right]
    rw [hd, hm]
    split_ifs <;> omega
  · have h1 : i + 1 = W * (i / W) + (i % W + 1) := by omega
    have hlt : i % W + 1 < W := by omega
    have hd : (i + 1) / W = i / W := by
      rw [h1, Nat.mul_add_div hW, Nat.div_eq_of_lt hlt, Nat.add_zero]
    have hm : (i + 1) % W = i % W + 1 := by
      rw [h1, Nat.mul_add_mod, Nat.mod_eq_of_lt hlt]
    rw [hd, hm]
    split_ifs <;> omega

theorem assign_loop_narrow (W : Nat) (hW : 0 < W) :
    ∀ (n i : Nat) (threads_rem : Int) (ws : Nat → List Nat),
      threads_rem ≤ 0 → i + n ≤ MAX_FDS * W → narrow_inv W i ws →
      narrow_inv W (i + n) (assign_loop W 1 n i i threads_rem ws) := by
  intro n
  induction n with
  | zero => intro i tr ws _ _ hinv; rw [assign_loop]; exact hinv
  | succ n ih =>
    intro i tr ws htr hcap hinv
    rw [assign_loop]
    rw [if_neg (by omega)]
    have hmodlt := Nat.mod_lt i hW
    have hlen : (ws (i % W)).length = i / W := by
      rw [hinv.1 _ hmodlt, if_neg (by omega)]; rfl
    have hdiv : i / W < MAX_FDS := by
      rw [Nat.div_lt_iff_lt_mul hW]
      omega
    have hstep : assign_file W i i (1 + 0) 0 ws
        = Function.update ws (i % W) (ws (i % W) ++ [i]) := by
      rw [assign_file, Nat.add_zero, if_neg (by omega), assign_file]
    rw [hstep]
    have hadd : i + (n + 1) = (i + 1) + n := by omega
    rw [hadd] at hcap ⊢
    apply ih (i + 1) (tr - 1) _ (by omega) hcap
    constructor
    · intro w hw
      rw [succ_div_mod_count W i w hW hw]
      by_cases h : w = i % W
      · subst h
        rw [Function.update_same, List.length_append, hinv.1 _ hw, if_pos rfl]
        rfl
      · rw [Function.update_noteq h, hinv.1 _ hw, if_neg h]
        rfl
    · intro x hx
      by_cases hxi : x = i
      · subst hxi
        refine ⟨x % W, hmodlt, ?_⟩
        rw [Function.update_same]
        exact List.mem_append_right _ (List.mem_singleton_self _)
      · obtain ⟨w, hw, hmem⟩ := hinv.2 x (by omega)
        refine ⟨w, hw, ?_⟩
        by_cases h : w = i % W
        · subst h
          rw [Function.update_same]
          exact List.mem_append_left _ hmem
        · rw [Function.update_noteq h]
          exact hmem

theorem balanced_total_of_narrow (W F : Nat) (hW : 0 < W) (ws : Nat → List Nat)
    (h : narrow_inv W F ws) : balanced_total W F ws := by
  refine ⟨fun w hw => ?_, h.2⟩
  rw [h.1 w hw]
  have hdm := Nat.div_add_mod F W
  have hr := Nat.mod_lt F hW
  constructor
  · omega
  · unfold ceil_div
    by_cases hlt : w < F % W
    · rw [if_pos hlt]
      have hx : W * (F / W + 1) = W * (F / W) + W := by ring
      have h1 : F + W - 1 = W * (F / W + 1) + (F % W - 1) := by omega
      have h2 : F % W - 1 < W := by omega
      rw [h1, Nat.mul_add_div hW, Nat.div_eq_of_lt h2]
    · rw [if_neg hlt]
      exact Nat.div_le_div_right (by omega)

theorem balanced_total_of_wide (W F j : Nat) (hF : 1 ≤ F) (hFW : F ≤ W) (hj : j = W)
    (ws : Nat → List Nat) (h : wide_inv W F j ws) : balanced_total W F ws := by
  refine ⟨fun w hw => ?_, h.2⟩
  rw [h.1 w hw, if_pos (by omega)]
  constructor
  · have : F / W ≤ W / W := Nat.div_le_div_right hFW
    rw [Nat.div_self (by omega)] at this
    exact this
  · unfold ceil_div
    rw [Nat.le_div_iff_mul_le (by omega)]
    omega

/-- C3 (amended). For `F >= 1` files and `W >= 1` workers with `F <= MAX_FDS * W`
(no worker reaches the limit of 16 files), the distribution loop of `main` leaves
every worker with between `floor(F / W)` and `ceil(F / W)` files, and every file
is with at least one worker. -/
theorem main_assign_balanced_total (W F : Nat) (hF : 1 ≤ F) (hW : 1 ≤ W)
    (hcap : F ≤ MAX_FDS * W) : balanced_total W F (main_assign W F) := by
  unfold main_assign
  by_cases h0 : W / F = 0
  · simp only [h0, if_true]
    have hinit : narrow_inv W 0 (fun _ => []) := by
      refine ⟨fun w _ => ?_, fun x hx => absurd hx (Nat.not_lt_zero x)⟩
      simp
    have h := assign_loop_narrow W hW F 0 0 (fun _ => []) (le_refl _) (by omega) hinit
    rw [Nat.zero_add] at h
    exact balanced_total_of_narrow W F hW _ h
  · simp only [if_neg h0]
    have hFW : F ≤ W := by
      by_contra hlt
      exact h0 (Nat.div_eq_of_lt (by omega))
    have hdm := Nat.div_add_mod W F
    have hr := Nat.mod_lt W (show 0 < F by omega)
    have hcomm : F * (W / F) = W / F * F := Nat.mul_comm _ _
    have hinit : wide_inv W 0 0 (fun _ => []) := by
      refine ⟨fun w _ => ?_, fun x hx => absurd hx (Nat.not_lt_zero x)⟩
      simp
    have h := assign_loop_wide W (W / F) (W % F) (Nat.pos_of_ne_zero h0) F 0 0
      ((W : Int) - ((W / F : Nat) : Int) * (F : Int)) (fun _ => [])
      (by
        have : ((W / F : Nat) : Int) * (F : Int) = ((W / F * F : Nat) : Int) := by push_cast; rfl
        rw [this]
        omega)
      (by simp)
      (by rw [Nat.zero_add, Nat.mul_comm]; omega) hinit
    rw [Nat.zero_add] at h
    exact balanced_total_of_wide W F _ hF hFW (by rw [Nat.mul_comm]; omega) _ h

/-- C3 (witness): two files and three workers. -/
theorem main_assign_balanced_total_witness :
    (1 ≤ 2 ∧ 1 ≤ 3 ∧ 2 ≤ MAX_FDS * 3) ∧ balanced_total 3 2 (main_assign 3 2) :=
  ⟨by decide, main_assign_balanced_total 3 2 (by decide) (by decide) (by decide)⟩

/-- Scenario B: two files and three workers: the workers hold `[0]`, `[0]`, `[1]`. -/
theorem scenario_B : (List.range 3).map (main_assign 3 2) = [[0], [0], [1]] := by
  decide

/-- The loop of `prep_more_ios` never needs more iterations than `max_ios`
(one when `max_ios` is 0): more fuel than that does not change its result, so a
`none` is a fault of `init_io`. -/
theorem prep_loop_fuel (cfg : config) (rand : Nat → Nat) (head max_ios : Nat)
    (hmax : max_ios < 2 ^ 32) :
    ∀ (fuel : Nat) (s : submitter) (tail next_tail prepped : Nat),
      1 ≤ fuel → max_ios - prepped ≤ fuel → prepped < 2 ^ 32 - 1 →
      prep_loop cfg rand head max_ios (fuel + 1) s tail next_tail prepped
        = prep_loop cfg rand head max_ios fuel s tail next_tail prepped := by
  intro fuel
  induction fuel with
  | zero => intro s tail nt p h; omega
  | succ fuel ih =>
    intro s tail nt p _ hneed hp
    conv_lhs => rw [prep_loop]
    conv_rhs => rw [prep_loop]
    dsimp only
    split
    · rfl
    · cases hio : init_io cfg s (tail &&& s.sq_ring.ring_mask) (rand p) with
      | none => rfl
      | some s1 =>
        dsimp only
        have hu : u32 (p + 1) = p + 1 := by unfold u32; omega
        rw [hu]
        split
        · rename_i hlt
          exact ih _ _ _ _ (by omega) (by omega) (by omega)
        · rfl

/-- The short-accept branch in general: when `io_uring_enter` returns `ret` with
`0 < ret < to_submit`, control goes to `submit_more` with `prepped` lowered by
`to_submit - ret`; so with `prepped = to_submit` (as at every call that submits)
the new `prepped`, which the next call requests, is `ret`. -/
theorem after_enter_short_accept (cfg : config) (fr fr2 : frame) (k : enter_result)
    (p2 : Option pc) (hpos : 0 < k.ret) (hlt : k.ret < fr.to_submit)
    (h : after_enter cfg fr k = some (fr2, p2)) :
    p2 = some .submit_more ∧ fr2.prepped = fr.prepped - (fr.to_submit - k.ret) := by
  unfold after_enter at h
  have hce : calls_enter fr = true := rfl
  rw [hce] at h
  simp only [if_true] at h
  cases hr : reap_events cfg { kernel_enter fr.s k with calls := fr.s.calls + 1 } with
  | none => rw [hr] at h; cases h
  | some sr =>
    rw [hr] at h
    dsimp only at h
    rw [if_pos (by omega), if_neg (by omega), if_pos hlt] at h
    simp only [Option.some.injEq, Prod.mk.injEq] at h
    obtain ⟨h1, h2⟩ := h
    exact ⟨h2.symm, by rw [← h1]⟩

/-- After a short accept of `ret` out of `to_submit = prepped`, the next
`io_uring_enter` call requests `ret` submissions. -/
theorem short_accept_next_request (cfg : config) (lrand48 : Nat → Nat) (fr fr2 : frame)
    (k : enter_result) (p2 : Option pc) (heq : fr.prepped = fr.to_submit)
    (hpos : 0 < k.ret) (hlt : k.ret < fr.to_submit)
    (h : after_enter cfg fr k = some (fr2, p2)) :
    ∃ to_wait getevents inflight,
      (submitter_loop cfg lrand48 [k] fr .submit).trace
        = [enter_event cfg fr, .enter k.ret to_wait getevents inflight] := by
  obtain ⟨hp, hprep⟩ := after_enter_short_accept cfg fr fr2 k p2 hpos hlt h
  subst hp
  refine ⟨to_wait cfg { fr2 with to_submit := fr2.prepped },
    to_wait cfg { fr2 with to_submit := fr2.prepped } != 0, fr2.s.inflight, ?_⟩
  have hk : fr2.prepped = k.ret := by rw [hprep, heq]; omega
  rw [submitter_loop]
  simp only [before_enter, h, submitter_loop, List.nil_append, enter_event, hk]

end IoUring
